import Mathlib

/-!
# Verification of the `ui-navigation` focus-resolution engine

This file gives a shallow embedding of `src/lib.rs` of the `ui-navigation`
repository: the data model (`Focusable`, `NavFence`, the `Focused` marker),
the request-resolution algorithm (`resolve` and its helpers `resolve_2d`,
`resolve_sequence`, `parent_nav_fence`, `children_focusables`,
`non_inert_within`, `trim_common_tail`, `root_path`) and the state-committing
event listener `listen_nav_requests`, together with theorems about them.

Modelling conventions:
* Entities are natural numbers; the Bevy ECS queries of `NavQueries` are
  modelled as association lists (`alookup` models `Query::get`, list order
  models query iteration order).
* Rust functions that can panic return `RRes`: `.ok` for a normal result,
  `.fatal` for a panic (a failed `assert!` or `.unwrap()`), and `.div` for
  divergence.  Recursive walks over the entity hierarchy are defined with an
  explicit fuel; the canonical fuel chosen for each wrapper is large enough
  that fuel exhaustion (`.div` or an exhausted `Option`) happens exactly when
  the Rust original would recurse forever (a chain of successful lookups
  longer than the association list must revisit a key, i.e. be a cycle).
* World positions are modelled with exact integer coordinates; on them the
  `f32` comparisons of `resolve_2d` (`partial_cmp ... unwrap_or(Equal)`) are
  total and exact.
* The `events` module (`src/events.rs`) is declared in `lib.rs` but its
  source is not part of the provided tree; the handful of items it exports
  are modelled from the spec and are marked `Modelled from the spec:` below.
-/

namespace UiNav

abbrev Entity := Nat

/-- The four focus states of `FocusState` in `lib.rs`. -/
inductive FocusState where
  | Dormant
  | Focused
  | Active
  | Inert
deriving DecidableEq, Repr

/-- The `Focusable` component: a navigable leaf with a focus state. -/
structure Focusable where
  focus_state : FocusState
deriving DecidableEq, Repr

/-- The `NavFence` component: a scoping container with an optional entry
point (`focus_parent`, `None` for a navigation root) and a sequence-mode
flag. -/
structure NavFence where
  focus_parent : Option Entity
  is_sequence_menu : Bool
deriving DecidableEq, Repr

/-- An exact 2D position (models the `xy()` projection of a
`GlobalTransform` translation). -/
structure Pos where
  x : Int
  y : Int
deriving DecidableEq, Repr

/-- Modelled from the spec: the `Direction` enum lives in `src/events.rs`,
which is not among the provided sources.  The spec only requires a compass
direction type for `Move` requests. -/
inductive Direction where
  | South
  | North
  | East
  | West
deriving DecidableEq, Repr

/-- Modelled from the spec: `Direction::is_in` lives in `src/events.rs`,
which is not among the provided sources.  The spec describes it as a
"directional half-plane test against `focused`'s position (e.g., "Right"
keeps siblings with strictly greater x, or an equivalent directional
predicate)"; we use exactly that half-plane predicate, with East the
direction of increasing x and North the direction of increasing y. -/
def Direction.is_in : Direction → Pos → Pos → Bool
  | .East, reference, other => reference.x < other.x
  | .West, reference, other => other.x < reference.x
  | .North, reference, other => reference.y < other.y
  | .South, reference, other => other.y < reference.y

/-- Modelled from the spec: the `MenuDirection` enum (`Next`/`Previous`)
lives in `src/events.rs`, which is not among the provided sources. -/
inductive MenuDirection where
  | Next
  | Previous
deriving DecidableEq, Repr

/-- Modelled from the spec: the `NavRequest` enum lives in `src/events.rs`,
which is not among the provided sources.  The spec enumerates the request
kinds: move in a compass direction, activate, cancel, step next/previous,
and jump directly to a node. -/
inductive NavRequest where
  | Move (direction : Direction)
  | Action
  | Cancel
  | MenuMove (menu_direction : MenuDirection)
  | FocusOn (target : Entity)
deriving DecidableEq, Repr

/-- Modelled from the spec: the `NavEvent` enum lives in `src/events.rs`,
which is not among the provided sources.  The spec describes the transition
outcome as either Changed, with non-empty sequences `from` and `to`, or
Caught, with the focus chain and the original request.  The Rust type holds
`NonEmpty<Entity>` vectors; here they are plain lists, with non-emptiness
proved where needed.  (`from` is a Lean keyword, so the field is `fromL`.) -/
inductive NavEvent where
  | FocusChanged (toL : List Entity) (fromL : List Entity)
  | Caught (fromL : List Entity) (request : NavRequest)
deriving DecidableEq, Repr

/-- Modelled from the spec: `NavEvent::focus_changed` builds a Changed
outcome whose `to` sequence is the single target node (the spec's Changed
(to=target) outcomes of the Move, Cancel and Step branches). -/
def NavEvent.focus_changed (toL : Entity) (fromL : List Entity) : NavEvent :=
  .FocusChanged [toL] fromL

/-- The read-only per-resolution view of the world (`NavQueries` in
`lib.rs`), with each Bevy query modelled as an association list. -/
structure NavQueries where
  children : List (Entity × List Entity)
  parents : List (Entity × Entity)
  focusables : List (Entity × Focusable)
  nav_fences : List (Entity × NavFence)
  transform : List (Entity × Pos)
deriving DecidableEq, Repr

/-- Association-list lookup, modelling `Query::get` (first entry wins). -/
def alookup {α : Type} (e : Entity) : List (Entity × α) → Option α
  | [] => none
  | (k, v) :: rest => if e = k then some v else alookup e rest

/-- Result of running a piece of Rust code that may panic or diverge. -/
inductive RRes (α : Type) where
  | ok : α → RRes α
  | fatal : RRes α
  | div : RRes α
deriving DecidableEq, Repr

/-- Squared Euclidean distance (`Vec2::distance_squared`, exact). -/
def dist_sq (a b : Pos) : Int :=
  (a.x - b.x) * (a.x - b.x) + (a.y - b.y) * (a.y - b.y)

/-- The position of an entity; meaningful whenever the entity has a
transform (the callers panic before using the default). -/
def posOf (q : NavQueries) (e : Entity) : Pos :=
  (alookup e q.transform).getD ⟨0, 0⟩

/-- `resolve_2d` from `lib.rs`: which entity in `siblings` can be reached
from `focused` in `direction`.  Panics (`.fatal`) when `focused` or any
sibling has no transform (`.unwrap()` on `transform.get`); otherwise keeps
the siblings passing the direction test and distinct from `focused`, and
returns the first one of minimal squared distance (`Iterator::min_by`
returns the first minimum). -/
def resolve_2d (focused : Entity) (direction : Direction)
    (siblings : List Entity) (q : NavQueries) : RRes (Option Entity) :=
  match alookup focused q.transform with
  | none => .fatal
  | some focused_loc =>
    if siblings.all (fun s => (alookup s q.transform).isSome) then
      match siblings.filter
          (fun s => direction.is_in focused_loc (posOf q s) && decide (s ≠ focused)) with
      | [] => .ok none
      | s :: rest => .ok (some (rest.foldl
          (fun acc x =>
            if dist_sq focused_loc (posOf q x) < dist_sq focused_loc (posOf q acc)
            then x else acc) s))
    else .fatal

/-- `resolve_sequence` from `lib.rs`: the next or previous entity of
`siblings` relative to `focused`. -/
def resolve_sequence (focused : Entity) (direction : MenuDirection)
    (siblings : List Entity) : Option Entity :=
  match siblings.findIdx? (fun e => e == focused) with
  | none => none
  | some focused_index =>
    match direction with
    | .Next => siblings.get? (focused_index + 1)
    | .Previous => if focused_index = 0 then none else siblings.get? (focused_index - 1)

/-- `non_inert_within` from `lib.rs`: the first sibling that is a focusable
and not inert, or else the first sibling, or `none` for an empty list. -/
def non_inert_within (siblings : List Entity) (q : NavQueries) : Option Entity :=
  match siblings.find? (fun e =>
      match alookup e q.focusables with
      | some f => decide (f.focus_state ≠ FocusState.Inert)
      | none => false) with
  | some e => some e
  | none => siblings.head?

/-- The loop of `trim_common_tail` from `lib.rs`, carrying the two indices
`i1`, `i2` (both start at the last position and are decremented together).
On the first mismatch both vectors are truncated to one element past the
mismatch; if an index reaches 0 while elements still match, the vectors are
returned unchanged. -/
def trimLoop {α : Type} [DecidableEq α] (v1 v2 : List α) : Nat → Nat → List α × List α
  | 0, i2 =>
    if v1[0]? ≠ v2[i2]? then (v1.take 2, v2.take (i2 + 2)) else (v1, v2)
  | i1 + 1, 0 =>
    if v1[i1 + 1]? ≠ v2[0]? then (v1.take (i1 + 3), v2.take 2) else (v1, v2)
  | i1 + 1, i2 + 1 =>
    if v1[i1 + 1]? ≠ v2[i2 + 1]? then (v1.take (i1 + 3), v2.take (i2 + 3))
    else trimLoop v1 v2 i1 i2

/-- `trim_common_tail` from `lib.rs`: remove all but one mutually identical
elements at the end of `v1` and `v2`.  The Rust function operates on
`NonEmpty` vectors; the claims are only about non-empty lists. -/
def trim_common_tail {α : Type} [DecidableEq α] (v1 v2 : List α) : List α × List α :=
  trimLoop v1 v2 (v1.length - 1) (v2.length - 1)

/-- Fueled `parent_nav_fence` from `lib.rs`: walk the `Parent` chain of
`focusable` until an entity carrying a `NavFence` is found.  `none` is fuel
exhaustion (the Rust original recurses forever on a cyclic parent chain);
`some none` means no fence ancestor; `some (some (e, fence))` is the
containing fence. -/
def parent_nav_fence_fuel : Nat → Entity → NavQueries → Option (Option (Entity × NavFence))
  | 0, _, _ => none
  | fuel + 1, focusable, q =>
    match alookup focusable q.parents with
    | none => some none
    | some parent =>
      match alookup parent q.nav_fences with
      | some fence => some (some (parent, fence))
      | none => parent_nav_fence_fuel fuel parent q

/-- `parent_nav_fence` with its canonical fuel: a chain of more than
`q.parents.length` successful parent lookups must revisit a key, so with
this fuel, exhaustion coincides exactly with divergence of the original. -/
def parent_nav_fence (focusable : Entity) (q : NavQueries) :
    Option (Option (Entity × NavFence)) :=
  parent_nav_fence_fuel (q.parents.length + 1) focusable q

/-- Sequentially flatten an optional-list-valued function over a list,
failing if any element fails (the `flat_map` of `children_focusables`, with
divergence threaded through). -/
def mapOptList (f : Entity → Option (List Entity)) : List Entity → Option (List Entity)
  | [] => some []
  | e :: rest =>
    match f e, mapOptList f rest with
    | some l, some ls => some (l ++ ls)
    | _, _ => none

/-- Fueled `children_focusables` from `lib.rs`: all focusable children of a
fence, descending through children that are neither focusables nor fences.
`none` is fuel exhaustion (divergence of the original on a cyclic `Children`
graph). -/
def children_focusables_fuel : Nat → Entity → NavQueries → Option (List Entity)
  | 0, _, _ => none
  | fuel + 1, nav_fence, q =>
    match alookup nav_fence q.children with
    | none => some []
    | some direct_children =>
      let focusables := direct_children.filter
        (fun e => (alookup e q.focusables).isSome)
      let transitive := direct_children.filter
        (fun e => (alookup e q.focusables).isNone && (alookup e q.nav_fences).isNone)
      match mapOptList (fun e => children_focusables_fuel fuel e q) transitive with
      | some ls => some (focusables ++ ls)
      | none => none

/-- `children_focusables` with its canonical fuel: a descent deeper than
`q.children.length` successful `Children` lookups must revisit a key, so
fuel exhaustion coincides exactly with divergence of the original. -/
def children_focusables (nav_fence : Entity) (q : NavQueries) : Option (List Entity) :=
  children_focusables_fuel (q.children.length + 1) nav_fence q

/-- The loop of `root_path` from `lib.rs`: repeatedly move to the containing
fence's entry point, panicking (`.fatal`) when the accumulated path would be
revisited, returning the path when a root is reached. -/
def root_path_loop (q : NavQueries) : Nat → List Entity → Entity → RRes (List Entity)
  | 0, _, _ => .div
  | fuel + 1, ret, cur =>
    match parent_nav_fence cur q with
    | none => .div
    | some none => .ok ret
    | some (some (_, fence)) =>
      match fence.focus_parent with
      | none => .ok ret
      | some next =>
        if next ∈ ret then .fatal
        else root_path_loop q fuel (ret ++ [next]) next

/-- `root_path` from `lib.rs` with its canonical fuel: every pushed entity
is the entry point of some fence and all pushed entities are distinct, so
the loop runs at most `q.nav_fences.length + 1` times; with this fuel,
`.div` can only arise from a divergent `parent_nav_fence`. -/
def root_path (e : Entity) (q : NavQueries) : RRes (List Entity) :=
  root_path_loop q (q.nav_fences.length + 2) [e] e

/-- Fueled `resolve` from `lib.rs`.  The two leading `assert!`s become
`.fatal`; `Action`'s `non_inert_within(..).unwrap()` and `MenuMove`'s
`nav_fence.focus_parent.unwrap()` become `.fatal` in their `None` cases.
The accumulated `from` vector is `visited ++ [focused]`
(`(from, focused).into()` appends). -/
def resolve_fuel : Nat → Entity → NavRequest → NavQueries → List Entity → RRes NavEvent
  | 0, _, _, _, _ => .div
  | fuel + 1, focused, request, q, visited =>
    if (alookup focused q.focusables).isNone then .fatal
    else if focused ∈ visited then .fatal
    else
      match request with
      | .Move direction =>
        match parent_nav_fence focused q with
        | none => .div
        | some pr =>
          match
            (match pr with
             | some (parent, _) => children_focusables parent q
             | none => some (q.focusables.map Prod.fst)) with
          | none => .div
          | some siblings =>
            match resolve_2d focused direction siblings q with
            | .fatal => .fatal
            | .div => .div
            | .ok (some toL) => .ok (NavEvent.focus_changed toL (visited ++ [focused]))
            | .ok none => .ok (.Caught (visited ++ [focused]) request)
      | .Cancel =>
        match parent_nav_fence focused q with
        | none => .div
        | some (some (_, fence)) =>
          match fence.focus_parent with
          | some toL => .ok (NavEvent.focus_changed toL ((visited ++ [focused]) ++ [toL]))
          | none => .ok (.Caught (visited ++ [focused]) request)
        | some none => .ok (.Caught (visited ++ [focused]) request)
      | .Action =>
        match q.nav_fences.find? (fun p => decide (p.2.focus_parent = some focused)) with
        | none => .ok (.Caught (visited ++ [focused]) request)
        | some (child_nav_fence, _) =>
          match children_focusables child_nav_fence q with
          | none => .div
          | some to_list =>
            match non_inert_within to_list q with
            | none => .fatal
            | some t => .ok (.FocusChanged (t :: (visited ++ [focused])) (visited ++ [focused]))
      | .MenuMove menu_direction =>
        match parent_nav_fence focused q with
        | none => .div
        | some none => .ok (.Caught (visited ++ [focused]) request)
        | some (some (parent, nav_fence)) =>
          match children_focusables parent q with
          | none => .div
          | some siblings =>
            if nav_fence.is_sequence_menu then
              match resolve_sequence focused menu_direction siblings with
              | some toL => .ok (NavEvent.focus_changed toL (visited ++ [focused]))
              | none => .ok (.Caught (visited ++ [focused]) request)
            else
              match nav_fence.focus_parent with
              | none => .fatal
              | some fp => resolve_fuel fuel fp request q (visited ++ [focused])
      | .FocusOn new_to_focus =>
        match root_path focused q with
        | .fatal => .fatal
        | .div => .div
        | .ok f =>
          match root_path new_to_focus q with
          | .fatal => .fatal
          | .div => .div
          | .ok t =>
            match trim_common_tail f t with
            | (f2, t2) => .ok (.FocusChanged t2 f2)

/-- `resolve` with its canonical fuel: the `MenuMove` delegation visits a
fresh entry point (of some fence) at every level or panics, so its depth is
at most `q.nav_fences.length + 1`. -/
def resolve (focused : Entity) (request : NavRequest) (q : NavQueries)
    (visited : List Entity) : RRes NavEvent :=
  resolve_fuel (q.nav_fences.length + 2) focused request q visited

/-- The mutable world acted upon by `listen_nav_requests`: the queried
components plus the set of entities carrying the `Focused` marker
component (`Query<Entity, With<Focused>>`). -/
structure WorldState where
  queries : NavQueries
  focused_markers : List Entity
deriving DecidableEq, Repr

/-- One deferred ECS command issued by `listen_nav_requests`:
`commands.entity(e).insert(Focusable{state})`, `.remove::<Focused>()`, or
`.insert(Focused)`. -/
inductive Cmd where
  | insertFoc (e : Entity) (s : FocusState)
  | removeMark (e : Entity)
  | insertMark (e : Entity)
deriving DecidableEq, Repr

/-- `insert`ing a `Focusable` component: overwrite the entry if the entity
already has one, otherwise add it. -/
def set_focusable (l : List (Entity × Focusable)) (e : Entity) (f : Focusable) :
    List (Entity × Focusable) :=
  if l.any (fun p => decide (p.1 = e)) then
    l.map (fun p => if p.1 = e then (e, f) else p)
  else l ++ [(e, f)]

/-- Apply one deferred command to the world. -/
def apply_cmd (w : WorldState) : Cmd → WorldState
  | .insertFoc e s =>
    { w with queries :=
        { w.queries with focusables := set_focusable w.queries.focusables e ⟨s⟩ } }
  | .removeMark e =>
    { w with focused_markers := w.focused_markers.filter (fun x => decide (x ≠ e)) }
  | .insertMark e =>
    { w with focused_markers :=
        if e ∈ w.focused_markers then w.focused_markers else w.focused_markers ++ [e] }

/-- The commands of the `put_to_sleep` loop of `listen_nav_requests`: each
earlier element of `from` is set `Dormant` and loses the marker. -/
def dormantCmds : List Entity → List Cmd
  | [] => []
  | e :: rest => Cmd.insertFoc e .Dormant :: Cmd.removeMark e :: dormantCmds rest

/-- The command sequence issued by `listen_nav_requests` for a
`FocusChanged` event, in program order: `from.split_last()` gives
`(disable, put_to_sleep)` — the **last** element of `from` is set `Inert`
and loses the marker, the earlier ones are set `Dormant` and lose the
marker; then `to.split_first()` gives `(focus, activate)` — the first
element of `to` is set `Focused` and gains the marker, the rest are set
`Active`. -/
def commit_cmds (toL fromL : List Entity) : List Cmd :=
  (match fromL.getLast? with
   | some disable => [Cmd.insertFoc disable .Inert, Cmd.removeMark disable]
   | none => [])
  ++ dormantCmds fromL.dropLast
  ++ (match toL.head? with
      | some focus => [Cmd.insertFoc focus .Focused, Cmd.insertMark focus]
      | none => [])
  ++ toL.tail.map (fun e => Cmd.insertFoc e .Active)

/-- Commit one resolution outcome: `FocusChanged` applies its command batch
in order, `Caught` performs no mutation. -/
def commit_event (w : WorldState) : NavEvent → WorldState
  | .FocusChanged toL fromL => (commit_cmds toL fromL).foldl apply_cmd w
  | .Caught _ _ => w

/-- The body of `listen_nav_requests` once a focused entity is selected:
resolve the request, commit the event if it is a `FocusChanged`, and report
the event outward. -/
def listen_resolve (w : WorldState) (focused_id : Entity) (request : NavRequest) :
    RRes (WorldState × NavEvent) :=
  match resolve focused_id request w.queries [] with
  | .fatal => .fatal
  | .div => .div
  | .ok event => .ok (commit_event w event, event)

/-- One iteration of `listen_nav_requests` for a single request:
`focused.get_single()` yields the unique marker holder; with several
holders the `assert!` panics; with none, the first focusable of the world
is substituted (`.next().unwrap()` panics when there is none).  A `.fatal`
result emits no outcome. -/
def listen_nav_requests (w : WorldState) (request : NavRequest) :
    RRes (WorldState × NavEvent) :=
  match w.focused_markers with
  | [] =>
    match w.queries.focusables.head? with
    | none => .fatal
    | some p => listen_resolve w p.1 request
  | [a] => listen_resolve w a request
  | _ :: _ :: _ => .fatal

/-! ### Auxiliary notions used by the theorems -/

/-- The focus state written to `e` by the last `insertFoc` of a command
list, if any (later commands take precedence over earlier ones). -/
def lastWrite (e : Entity) : List Cmd → Option FocusState
  | [] => none
  | c :: rest =>
    match lastWrite e rest with
    | some s => some s
    | none =>
      match c with
      | .insertFoc x s => if x = e then some s else none
      | _ => none

/-- The effect of one command on the marker set alone. -/
def mark_step (m : List Entity) : Cmd → List Entity
  | .insertFoc _ _ => m
  | .removeMark e => m.filter (fun x => decide (x ≠ e))
  | .insertMark e => if e ∈ m then m else m ++ [e]

/-- The effect of a command list on the marker set alone. -/
def mfold : List Cmd → List Entity → List Entity
  | [], m => m
  | c :: rest, m => mfold rest (mark_step m c)

/-- One step of the entry-point chain climbed by `root_path`: the entry
point of the containing fence of `x`, when there is one. -/
def nav_step (q : NavQueries) (x : Entity) : Option Entity :=
  match parent_nav_fence x q with
  | some (some (_, fence)) => fence.focus_parent
  | _ => none

/-- The entry-point chain from `e`: `e`, then its containing fence's entry
point, and so on. -/
def nav_chain (q : NavQueries) (e : Entity) : Nat → Option Entity
  | 0 => some e
  | n + 1 => (nav_chain q e n).bind (nav_step q)

/-- All entry points declared by fences of the world. -/
def entry_points (q : NavQueries) : List Entity :=
  q.nav_fences.filterMap (fun p => p.2.focus_parent)

/-- The focus state stored for an entity (`none` when the entity has no
`Focusable` component). -/
def focus_state_of (w : WorldState) (e : Entity) : Option FocusState :=
  (alookup e w.queries.focusables).map Focusable.focus_state

/-- Marker/state consistency: every focusable whose stored state is
`Focused` carries the `Focused` marker, and every marker holder stores the
`Focused` state.  (The first clause quantifies over the stored entries, so
the predicate is decidable for concrete worlds.) -/
def consistentW (w : WorldState) : Prop :=
  (∀ e ∈ w.queries.focusables.map Prod.fst,
      alookup e w.queries.focusables = some ⟨.Focused⟩ → e ∈ w.focused_markers) ∧
  (∀ e ∈ w.focused_markers,
      alookup e w.queries.focusables = some ⟨.Focused⟩)

/-! ### Concrete worlds used by counterexamples, code-bug theorems and
witnesses -/

/-- A world with two focusables side by side (no fences); node 1 is
focused, node 2 lies to its East. -/
def C1w : WorldState :=
  { queries := { children := [], parents := [],
                 focusables := [(1, ⟨.Focused⟩), (2, ⟨.Inert⟩)],
                 nav_fences := [], transform := [(1, ⟨0, 0⟩), (2, ⟨1, 0⟩)] },
    focused_markers := [1] }

/-- `C1w` after committing the `Move East` outcome. -/
def C1wOut : WorldState :=
  { queries := { children := [], parents := [],
                 focusables := [(1, ⟨.Inert⟩), (2, ⟨.Focused⟩)],
                 nav_fences := [], transform := [(1, ⟨0, 0⟩), (2, ⟨1, 0⟩)] },
    focused_markers := [2] }

/-- A world where focusable 1 sits inside fence 10 whose entry point is
focusable 2: a `Cancel` from 1 exits to 2. -/
def C2w : WorldState :=
  { queries := { children := [], parents := [(1, 10)],
                 focusables := [(1, ⟨.Focused⟩), (2, ⟨.Inert⟩)],
                 nav_fences := [(10, ⟨some 2, false⟩)], transform := [] },
    focused_markers := [1] }

/-- `C2w` after committing the `Cancel` outcome: the previously focused
node 1 ends up `Dormant` (not `Inert`). -/
def C2wOut : WorldState :=
  { queries := { children := [], parents := [(1, 10)],
                 focusables := [(1, ⟨.Dormant⟩), (2, ⟨.Focused⟩)],
                 nav_fences := [(10, ⟨some 2, false⟩)], transform := [] },
    focused_markers := [2] }

/-- A world where fence 2 is gated by the focused node 1 but has no
children at all, so `children_focusables` is empty. -/
def C3w : WorldState :=
  { queries := { children := [], parents := [],
                 focusables := [(1, ⟨.Focused⟩)],
                 nav_fences := [(2, ⟨some 1, false⟩)], transform := [] },
    focused_markers := [1] }

/-- A well-formed world whose root fence 10 is **not** in sequence mode and
has no entry point; the focused node 1 is its child. -/
def C4w : WorldState :=
  { queries := { children := [(10, [1])], parents := [(1, 10)],
                 focusables := [(1, ⟨.Focused⟩)],
                 nav_fences := [(10, ⟨none, false⟩)], transform := [] },
    focused_markers := [1] }

/-- A nested world: focused node 1 sits in non-sequence fence 10 whose
entry point 2 sits in sequence fence 20 with ordered children `[2, 3]`. -/
def C4w2 : WorldState :=
  { queries := { children := [(10, [1]), (20, [2, 3])],
                 parents := [(1, 10), (2, 20), (3, 20)],
                 focusables := [(1, ⟨.Focused⟩), (2, ⟨.Inert⟩), (3, ⟨.Inert⟩)],
                 nav_fences := [(10, ⟨some 2, false⟩), (20, ⟨none, true⟩)],
                 transform := [] },
    focused_markers := [1] }

/-- A world with a single fence and no parent links (every parent chain is
trivially acyclic). -/
def C5q : NavQueries :=
  { children := [], parents := [], focusables := [(1, ⟨.Focused⟩)],
    nav_fences := [(10, ⟨some 1, false⟩)], transform := [] }

/-- A lone focused node with a transform; a `Move` has no eligible sibling
and is Caught. -/
def C7w : WorldState :=
  { queries := { children := [], parents := [],
                 focusables := [(1, ⟨.Focused⟩)],
                 nav_fences := [], transform := [(1, ⟨0, 0⟩)] },
    focused_markers := [1] }

/-- The committed result of the Caught `Move East` on `C7w` (no mutation,
so it is `C7w` again, spelled through `commit_event`). -/
def C7wOut : WorldState :=
  commit_event C7w (.Caught [1] (.Move .East))

/-- The spec's directional example: focused node 0 at the origin; siblings
1, 2, 3 at `(1,0)`, `(2,0)`, `(-1,0)`. -/
def C9q : NavQueries :=
  { children := [], parents := [], focusables := [], nav_fences := [],
    transform := [(0, ⟨0, 0⟩), (1, ⟨1, 0⟩), (2, ⟨2, 0⟩), (3, ⟨-1, 0⟩)] }

/-- A world with no focusable entity at all and no marker. -/
def C10wEmpty : WorldState :=
  { queries := { children := [], parents := [], focusables := [],
                 nav_fences := [], transform := [] },
    focused_markers := [] }

/-- A world with focusables but no `Focused` marker. -/
def C10wSome : WorldState :=
  { queries := { children := [], parents := [],
                 focusables := [(7, ⟨.Inert⟩), (8, ⟨.Inert⟩)],
                 nav_fences := [], transform := [(7, ⟨0, 0⟩), (8, ⟨1, 0⟩)] },
    focused_markers := [] }

/-! ## Basic lemmas about lookups and lists -/

theorem alookup_mem_keys {α : Type} {l : List (Entity × α)} {e : Entity} {v : α}
    (h : alookup e l = some v) : e ∈ l.map Prod.fst := by
  induction l with
  | nil => simp [alookup] at h
  | cons p rest ih =>
    rcases p with ⟨k, w⟩
    by_cases hek : e = k
    · simp [hek]
    · simp only [alookup, if_neg hek] at h
      simpa using Or.inr (ih h)

theorem head?_append_left {α : Type} (l1 l2 : List α) (h : l1 ≠ []) :
    (l1 ++ l2).head? = l1.head? := by
  cases l1 with
  | nil => exact absurd rfl h
  | cons a t => rfl

theorem head?_take {α : Type} (l : List α) (n : Nat) (h : n ≠ 0) :
    (l.take n).head? = l.head? := by
  cases l with
  | nil => simp
  | cons a t =>
    cases n with
    | zero => exact absurd rfl h
    | succ m => rfl

theorem alookup_append {α : Type} (x : Entity) (l1 l2 : List (Entity × α)) :
    alookup x (l1 ++ l2) =
      match alookup x l1 with
      | some v => some v
      | none => alookup x l2 := by
  induction l1 with
  | nil => simp [alookup]
  | cons p rest ih =>
    rcases p with ⟨k, v⟩
    by_cases hk : x = k
    · simp [alookup, hk]
    · simp [alookup, hk, ih]

theorem alookup_map_replace (l : List (Entity × Focusable)) (e : Entity) (f : Focusable)
    (h : l.any (fun p => decide (p.1 = e)) = true) :
    alookup e (l.map (fun p => if p.1 = e then (e, f) else p)) = some f := by
  induction l with
  | nil => simp at h
  | cons p rest ih =>
    rcases p with ⟨k, v⟩
    by_cases hk : k = e
    · have hmap : List.map (fun p => if p.1 = e then (e, f) else p) ((k, v) :: rest)
          = (e, f) :: List.map (fun p => if p.1 = e then (e, f) else p) rest := by
        simp [hk]
      rw [hmap]
      simp [alookup]
    · have hrest : rest.any (fun p => decide (p.1 = e)) = true := by
        simp only [List.any_cons, Bool.or_eq_true, decide_eq_true_eq] at h
        rcases h with h1 | h2
        · exact absurd h1 hk
        · exact h2
      have hke : ¬ e = k := fun hh => hk hh.symm
      have hmap : List.map (fun p => if p.1 = e then (e, f) else p) ((k, v) :: rest)
          = (k, v) :: List.map (fun p => if p.1 = e then (e, f) else p) rest := by
        simp [hk]
      rw [hmap]
      simp only [alookup, if_neg hke]
      exact ih hrest

theorem alookup_append_missing (l : List (Entity × Focusable)) (e : Entity) (f : Focusable)
    (h : ¬ l.any (fun p => decide (p.1 = e)) = true) :
    alookup e (l ++ [(e, f)]) = some f := by
  induction l with
  | nil => simp [alookup]
  | cons p rest ih =>
    rcases p with ⟨k, v⟩
    simp only [List.any_cons, Bool.or_eq_true, decide_eq_true_eq] at h
    push_neg at h
    have hk : ¬ e = k := fun hh => h.1 hh.symm
    simp only [List.cons_append, alookup, if_neg hk]
    exact ih (by simpa using h.2)

theorem alookup_set_self (l : List (Entity × Focusable)) (e : Entity) (f : Focusable) :
    alookup e (set_focusable l e f) = some f := by
  rw [set_focusable]
  by_cases hany : l.any (fun p => decide (p.1 = e)) = true
  · rw [if_pos hany]
    exact alookup_map_replace l e f hany
  · rw [if_neg hany]
    exact alookup_append_missing l e f hany

theorem alookup_map_replace_other (l : List (Entity × Focusable)) (e x : Entity)
    (f : Focusable) (hx : x ≠ e) :
    alookup x (l.map (fun p => if p.1 = e then (e, f) else p)) = alookup x l := by
  induction l with
  | nil => rfl
  | cons p rest ih =>
    rcases p with ⟨k, v⟩
    by_cases hk : k = e
    · have hmap : List.map (fun p => if p.1 = e then (e, f) else p) ((k, v) :: rest)
          = (e, f) :: List.map (fun p => if p.1 = e then (e, f) else p) rest := by
        simp [hk]
      rw [hmap]
      have hxk : ¬ x = k := fun hh2 => hx (hh2.trans hk)
      simp only [alookup, if_neg hx, if_neg hxk]
      exact ih
    · have hmap : List.map (fun p => if p.1 = e then (e, f) else p) ((k, v) :: rest)
          = (k, v) :: List.map (fun p => if p.1 = e then (e, f) else p) rest := by
        simp [hk]
      rw [hmap]
      by_cases hxk : x = k
      · simp [alookup, hxk]
      · simp only [alookup, if_neg hxk]
        exact ih

theorem alookup_set_other (l : List (Entity × Focusable)) (e x : Entity) (f : Focusable)
    (hx : x ≠ e) : alookup x (set_focusable l e f) = alookup x l := by
  rw [set_focusable]
  by_cases hany : l.any (fun p => decide (p.1 = e)) = true
  · rw [if_pos hany]
    exact alookup_map_replace_other l e x f hx
  · rw [if_neg hany]
    rw [alookup_append]
    cases hl : alookup x l with
    | some v => rfl
    | none => simp [alookup, hx]

/-! ## The commit machinery: last-write and marker characterisations -/

theorem alookup_foldl_cmds (cmds : List Cmd) (w : WorldState) (e : Entity) :
    alookup e ((cmds.foldl apply_cmd w).queries.focusables) =
      match lastWrite e cmds with
      | some s => some ⟨s⟩
      | none => alookup e w.queries.focusables := by
  induction cmds generalizing w with
  | nil => rfl
  | cons c rest ih =>
    simp only [List.foldl_cons, lastWrite]
    rw [ih]
    cases hrest : lastWrite e rest with
    | some s => rfl
    | none =>
      cases c with
      | insertFoc x s =>
        by_cases hx : x = e
        · subst hx
          simp [apply_cmd, alookup_set_self]
        · simp [apply_cmd, hx, alookup_set_other _ x e _ (fun hh => hx hh.symm)]
      | removeMark x => rfl
      | insertMark x => rfl

theorem markers_foldl_cmds (cmds : List Cmd) (w : WorldState) :
    (cmds.foldl apply_cmd w).focused_markers = mfold cmds w.focused_markers := by
  induction cmds generalizing w with
  | nil => rfl
  | cons c rest ih =>
    simp only [List.foldl_cons, mfold]
    rw [ih]
    congr 1
    cases c <;> rfl

theorem lastWrite_append (e : Entity) (l1 l2 : List Cmd) :
    lastWrite e (l1 ++ l2) =
      match lastWrite e l2 with
      | some s => some s
      | none => lastWrite e l1 := by
  induction l1 with
  | nil =>
    simp only [List.nil_append]
    cases lastWrite e l2 <;> rfl
  | cons c rest ih =>
    simp only [List.cons_append, lastWrite, List.append_eq, ih]
    cases lastWrite e l2 <;> cases lastWrite e rest <;> rfl

theorem lastWrite_dormant (e : Entity) (ds : List Entity) :
    lastWrite e (dormantCmds ds) = if e ∈ ds then some .Dormant else none := by
  induction ds with
  | nil => rfl
  | cons d rest ih =>
    simp only [dormantCmds, lastWrite, ih]
    by_cases hd : e ∈ rest
    · simp [hd]
    · by_cases hde : e = d
      · subst hde
        simp [hd]
      · have hde2 : ¬ d = e := fun hh => hde hh.symm
        simp [hd, hde, hde2]

theorem lastWrite_active (e : Entity) (ts : List Entity) :
    lastWrite e (ts.map (fun x => Cmd.insertFoc x .Active)) =
      if e ∈ ts then some .Active else none := by
  induction ts with
  | nil => rfl
  | cons t rest ih =>
    simp only [List.map_cons, lastWrite, ih]
    by_cases ht : e ∈ rest
    · simp [ht]
    · by_cases hte : e = t
      · subst hte
        simp [ht]
      · have hte2 : ¬ t = e := fun hh => hte hh.symm
        simp [ht, hte, hte2]

theorem commit_state_eq (w : WorldState) (toL fromL : List Entity) (e : Entity) :
    alookup e (commit_event w (.FocusChanged toL fromL)).queries.focusables =
      (if e ∈ toL.tail then some ⟨.Active⟩
       else if toL.head? = some e then some ⟨.Focused⟩
       else if e ∈ fromL.dropLast then some ⟨.Dormant⟩
       else if fromL.getLast? = some e then some ⟨.Inert⟩
       else alookup e w.queries.focusables) := by
  show alookup e ((commit_cmds toL fromL).foldl apply_cmd w).queries.focusables = _
  rw [alookup_foldl_cmds, commit_cmds]
  rw [lastWrite_append, lastWrite_append, lastWrite_append]
  rw [lastWrite_active, lastWrite_dormant]
  have hfocus : lastWrite e (match toL.head? with
      | some focus => [Cmd.insertFoc focus .Focused, Cmd.insertMark focus]
      | none => []) = if toL.head? = some e then some .Focused else none := by
    cases htl : toL.head? with
    | none => simp [lastWrite]
    | some h =>
      by_cases hh : h = e
      · subst hh
        simp [lastWrite]
      · simp [lastWrite, hh, fun hx : some h = some e => hh (Option.some.inj hx)]
  have hdisable : lastWrite e (match fromL.getLast? with
      | some disable => [Cmd.insertFoc disable .Inert, Cmd.removeMark disable]
      | none => []) = if fromL.getLast? = some e then some .Inert else none := by
    cases hgl : fromL.getLast? with
    | none => simp [lastWrite]
    | some d =>
      by_cases hd : d = e
      · subst hd
        simp [lastWrite]
      · simp [lastWrite, hd, fun hx : some d = some e => hd (Option.some.inj hx)]
  rw [hfocus, hdisable]
  by_cases h1 : e ∈ toL.tail
  · simp [h1]
  · by_cases h2 : toL.head? = some e
    · simp [h1, h2]
    · by_cases h3 : e ∈ fromL.dropLast
      · simp [h1, h2, h3]
      · by_cases h4 : fromL.getLast? = some e
        · simp [h1, h2, h3, h4]
        · simp [h1, h2, h3, h4]

theorem mfold_append (l1 l2 : List Cmd) (m : List Entity) :
    mfold (l1 ++ l2) m = mfold l2 (mfold l1 m) := by
  induction l1 generalizing m with
  | nil => rfl
  | cons c rest ih => simp [mfold, ih]

theorem mfold_insertFoc_map (ts : List Entity) (s : FocusState) (m : List Entity) :
    mfold (ts.map (fun x => Cmd.insertFoc x s)) m = m := by
  induction ts with
  | nil => rfl
  | cons t rest ih => simp [mfold, mark_step, ih]

theorem mem_mfold_no_insert (cmds : List Cmd)
    (hnoins : ∀ x, Cmd.insertMark x ∉ cmds) :
    ∀ m x, x ∈ mfold cmds m → x ∈ m ∧ Cmd.removeMark x ∉ cmds := by
  induction cmds with
  | nil =>
    intro m x hx
    exact ⟨hx, by simp⟩
  | cons c rest ih =>
    intro m x hx
    have hni : ∀ y, Cmd.insertMark y ∉ rest := fun y hy =>
      hnoins y (List.mem_cons_of_mem _ hy)
    obtain ⟨hm, hnr⟩ := ih hni _ x hx
    cases c with
    | insertFoc a s =>
      refine ⟨hm, ?_⟩
      intro hc
      rcases List.mem_cons.mp hc with h1 | h2
      · exact Cmd.noConfusion h1
      · exact hnr h2
    | removeMark a =>
      simp only [mark_step, List.mem_filter, decide_eq_true_eq] at hm
      refine ⟨hm.1, ?_⟩
      intro hc
      rcases List.mem_cons.mp hc with h1 | h2
      · exact hm.2 (by injection h1)
      · exact hnr h2
    | insertMark a => exact absurd (List.mem_cons_self _ _) (hnoins a)

theorem removeMark_mem_dormant (x : Entity) (ds : List Entity) (h : x ∈ ds) :
    Cmd.removeMark x ∈ dormantCmds ds := by
  induction ds with
  | nil => simp at h
  | cons d rest ih =>
    rcases List.mem_cons.mp h with h1 | h2
    · subst h1
      simp [dormantCmds]
    · simp [dormantCmds, ih h2]

theorem insertMark_not_mem_dormant (x : Entity) (ds : List Entity) :
    Cmd.insertMark x ∉ dormantCmds ds := by
  induction ds with
  | nil => simp [dormantCmds]
  | cons d rest ih =>
    intro h
    rcases List.mem_cons.mp h with h1 | h2
    · exact Cmd.noConfusion h1
    · rcases List.mem_cons.mp h2 with h3 | h4
      · exact Cmd.noConfusion h3
      · exact ih h4

theorem commit_markers_eq (w : WorldState) (toL fromL : List Entity)
    (hsub : ∀ m ∈ w.focused_markers, m ∈ fromL) :
    (commit_event w (.FocusChanged toL fromL)).focused_markers =
      match toL.head? with
      | some h => [h]
      | none => [] := by
  show ((commit_cmds toL fromL).foldl apply_cmd w).focused_markers = _
  rw [markers_foldl_cmds, commit_cmds]
  rw [mfold_append, mfold_append, mfold_append]
  have hempty : mfold (dormantCmds fromL.dropLast)
      (mfold (match fromL.getLast? with
        | some disable => [Cmd.insertFoc disable FocusState.Inert, Cmd.removeMark disable]
        | none => []) w.focused_markers) = [] := by
    rw [← mfold_append]
    have hnoins : ∀ x, Cmd.insertMark x ∉
        ((match fromL.getLast? with
          | some disable => [Cmd.insertFoc disable FocusState.Inert, Cmd.removeMark disable]
          | none => []) ++ dormantCmds fromL.dropLast) := by
      intro x hx
      rcases List.mem_append.mp hx with h1 | h2
      · cases hgl : fromL.getLast? with
        | none => rw [hgl] at h1; simp at h1
        | some d =>
          rw [hgl] at h1
          rcases List.mem_cons.mp h1 with ha | hb
          · exact Cmd.noConfusion ha
          · rcases List.mem_cons.mp hb with hc | hd
            · exact Cmd.noConfusion hc
            · simp at hd
      · exact insertMark_not_mem_dormant x _ h2
    rw [List.eq_nil_iff_forall_not_mem]
    intro x hx
    obtain ⟨hm, hnr⟩ := mem_mfold_no_insert _ hnoins _ x hx
    have hxf : x ∈ fromL := hsub x hm
    have hne : fromL ≠ [] := by
      intro hh
      rw [hh] at hxf
      simp at hxf
    have hrm : Cmd.removeMark x ∈
        ((match fromL.getLast? with
          | some disable => [Cmd.insertFoc disable FocusState.Inert, Cmd.removeMark disable]
          | none => []) ++ dormantCmds fromL.dropLast) := by
      have hsplit : fromL.dropLast ++ [fromL.getLast hne] = fromL :=
        List.dropLast_append_getLast hne
      rw [← hsplit] at hxf
      rcases List.mem_append.mp hxf with h1 | h2
      · exact List.mem_append.mpr (Or.inr (removeMark_mem_dormant x _ h1))
      · have hx1 : x = fromL.getLast hne := by simpa using h2
        subst hx1
        rw [List.getLast?_eq_getLast fromL hne]
        exact List.mem_append.mpr (Or.inl (by simp))
    exact hnr hrm
  rw [hempty]
  cases htl : toL.head? with
  | none => exact mfold_insertFoc_map _ _ _
  | some h =>
    have h2 : mfold [Cmd.insertFoc h FocusState.Focused, Cmd.insertMark h] [] = [h] := by
      simp [mfold, mark_step]
    rw [h2]
    exact mfold_insertFoc_map _ _ _

/-! ## Lemmas about trim_common_tail -/

theorem trimLoop_neq {α : Type} [DecidableEq α] (v1 v2 : List α) (i1 i2 : Nat)
    (h : v1[i1]? ≠ v2[i2]?) :
    trimLoop v1 v2 i1 i2 = (v1.take (i1 + 2), v2.take (i2 + 2)) := by
  cases i1 <;> cases i2 <;> simp [trimLoop, h]

theorem trimLoop_eq_succ {α : Type} [DecidableEq α] (v1 v2 : List α) (i1 i2 : Nat)
    (h : v1[i1 + 1]? = v2[i2 + 1]?) :
    trimLoop v1 v2 (i1 + 1) (i2 + 1) = trimLoop v1 v2 i1 i2 := by
  simp [trimLoop, h]

theorem trimLoop_eq_zero_left {α : Type} [DecidableEq α] (v1 v2 : List α) (i2 : Nat)
    (h : v1[0]? = v2[i2]?) : trimLoop v1 v2 0 i2 = (v1, v2) := by
  simp [trimLoop, h]

theorem trimLoop_eq_zero_right {α : Type} [DecidableEq α] (v1 v2 : List α) (i1 : Nat)
    (h : v1[i1 + 1]? = v2[0]?) : trimLoop v1 v2 (i1 + 1) 0 = (v1, v2) := by
  simp [trimLoop, h]

theorem trimLoop_descend {α : Type} [DecidableEq α] (v1 v2 : List α) :
    ∀ (n i1 i2 : Nat),
      (∀ o, o < n → v1[i1 + n - o]? = v2[i2 + n - o]?) →
      trimLoop v1 v2 (i1 + n) (i2 + n) = trimLoop v1 v2 i1 i2 := by
  intro n
  induction n with
  | zero =>
    intro i1 i2 _
    rfl
  | succ n ih =>
    intro i1 i2 h
    have h0 : v1[i1 + n + 1]? = v2[i2 + n + 1]? := by
      have h1 := h 0 (Nat.succ_pos n)
      have e1 : i1 + (n + 1) - 0 = i1 + n + 1 := by omega
      have e2 : i2 + (n + 1) - 0 = i2 + n + 1 := by omega
      rw [e1, e2] at h1
      exact h1
    have hstep : trimLoop v1 v2 (i1 + (n + 1)) (i2 + (n + 1))
        = trimLoop v1 v2 (i1 + n) (i2 + n) := by
      have e1 : i1 + (n + 1) = (i1 + n) + 1 := by omega
      have e2 : i2 + (n + 1) = (i2 + n) + 1 := by omega
      rw [e1, e2]
      exact trimLoop_eq_succ v1 v2 (i1 + n) (i2 + n) h0
    rw [hstep]
    apply ih
    intro o ho
    have h1 := h (o + 1) (Nat.succ_lt_succ ho)
    have e1 : i1 + (n + 1) - (o + 1) = i1 + n - o := by omega
    have e2 : i2 + (n + 1) - (o + 1) = i2 + n - o := by omega
    rw [e1, e2] at h1
    exact h1

theorem trimLoop_head {α : Type} [DecidableEq α] (v1 v2 : List α) :
    ∀ (i1 i2 : Nat), (trimLoop v1 v2 i1 i2).1.head? = v1.head? ∧
      (trimLoop v1 v2 i1 i2).2.head? = v2.head? := by
  intro i1
  induction i1 with
  | zero =>
    intro i2
    by_cases h : v1[0]? ≠ v2[i2]?
    · rw [trimLoop_neq v1 v2 0 i2 h]
      exact ⟨head?_take _ 2 (by omega), head?_take _ (i2 + 2) (by omega)⟩
    · push_neg at h
      rw [trimLoop_eq_zero_left v1 v2 i2 h]
      exact ⟨rfl, rfl⟩
  | succ i1 ih =>
    intro i2
    cases i2 with
    | zero =>
      by_cases h : v1[i1 + 1]? ≠ v2[0]?
      · rw [trimLoop_neq v1 v2 (i1 + 1) 0 h]
        exact ⟨head?_take _ (i1 + 1 + 2) (by omega), head?_take _ 2 (by omega)⟩
      · push_neg at h
        rw [trimLoop_eq_zero_right v1 v2 i1 h]
        exact ⟨rfl, rfl⟩
    | succ i2 =>
      by_cases h : v1[i1 + 1]? ≠ v2[i2 + 1]?
      · rw [trimLoop_neq v1 v2 (i1 + 1) (i2 + 1) h]
        exact ⟨head?_take _ (i1 + 1 + 2) (by omega), head?_take _ (i2 + 1 + 2) (by omega)⟩
      · push_neg at h
        rw [trimLoop_eq_succ v1 v2 i1 i2 h]
        exact ih i2

theorem trim_common_tail_head {α : Type} [DecidableEq α] (v1 v2 : List α) :
    (trim_common_tail v1 v2).1.head? = v1.head? ∧
      (trim_common_tail v1 v2).2.head? = v2.head? :=
  trimLoop_head v1 v2 (v1.length - 1) (v2.length - 1)

theorem get?_append_two {α : Type} (xs t : List α) (x c : α) (j : Nat) :
    (xs ++ x :: c :: t)[xs.length + 2 + j]? = t[j]? := by
  have e1 : xs.length + 2 + j = xs.length + (j + 2) := by omega
  rw [e1, ← Nat.add_comm (j + 2) xs.length]
  rw [List.getElem?_append_right (by omega)]
  have e2 : j + 2 + xs.length - xs.length = j + 2 := by omega
  rw [e2]
  simp [List.getElem?_cons_succ]

theorem get?_append_one {α : Type} (xs t : List α) (x c : α) :
    (xs ++ x :: c :: t)[xs.length + 1]? = some c := by
  rw [← Nat.add_comm 1 xs.length]
  rw [List.getElem?_append_right (by omega)]
  have e2 : 1 + xs.length - xs.length = 1 := by omega
  rw [e2]
  simp

theorem get?_append_zero {α : Type} (xs t : List α) (x c : α) :
    (xs ++ x :: c :: t)[xs.length]? = some x := by
  rw [show xs.length = 0 + xs.length by omega]
  rw [List.getElem?_append_right (by omega)]
  simp

theorem take_anchor {α : Type} (xs t : List α) (x c : α) :
    (xs ++ x :: c :: t).take (xs.length + 2) = xs ++ [x, c] := by
  have h1 : xs ++ x :: c :: t = (xs ++ [x, c]) ++ t := by simp
  rw [h1, show xs.length + 2 = (xs ++ [x, c]).length by simp]
  exact List.take_left _ _

theorem trim_common_tail_diverge {α : Type} [DecidableEq α]
    (xs ys t : List α) (x y c : α) (hxy : x ≠ y) :
    trim_common_tail (xs ++ x :: c :: t) (ys ++ y :: c :: t)
      = (xs ++ [x, c], ys ++ [y, c]) := by
  rw [trim_common_tail]
  have hlen1 : (xs ++ x :: c :: t).length - 1 = (xs.length + 1) + t.length := by
    simp
    omega
  have hlen2 : (ys ++ y :: c :: t).length - 1 = (ys.length + 1) + t.length := by
    simp
    omega
  rw [hlen1, hlen2]
  rw [trimLoop_descend _ _ t.length (xs.length + 1) (ys.length + 1) ?_]
  · have hc : (xs ++ x :: c :: t)[xs.length + 1]? = (ys ++ y :: c :: t)[ys.length + 1]? := by
      rw [get?_append_one, get?_append_one]
    rw [show xs.length + 1 = xs.length + 1 from rfl]
    rw [trimLoop_eq_succ _ _ xs.length ys.length hc]
    have hd : (xs ++ x :: c :: t)[xs.length]? ≠ (ys ++ y :: c :: t)[ys.length]? := by
      rw [get?_append_zero, get?_append_zero]
      intro hh
      exact hxy (Option.some.inj hh)
    rw [trimLoop_neq _ _ xs.length ys.length hd]
    rw [take_anchor, take_anchor]
  · intro o ho
    have e1 : xs.length + 1 + t.length - o = xs.length + 2 + (t.length - 1 - o) := by omega
    have e2 : ys.length + 1 + t.length - o = ys.length + 2 + (t.length - 1 - o) := by omega
    rw [e1, e2, get?_append_two, get?_append_two]

theorem trim_common_tail_stop_left {α : Type} [DecidableEq α] (A B : List α)
    (hne : A ≠ []) (hlen : A.length ≤ B.length)
    (h : ∀ o, o < A.length → A[A.length - 1 - o]? = B[B.length - 1 - o]?) :
    trim_common_tail A B = (A, B) := by
  rw [trim_common_tail]
  have hA : 1 ≤ A.length := by
    cases A with
    | nil => exact absurd rfl hne
    | cons a s => simp
  have e1 : A.length - 1 = 0 + (A.length - 1) := by omega
  have e2 : B.length - 1 = (B.length - A.length) + (A.length - 1) := by omega
  rw [e1, e2]
  rw [trimLoop_descend _ _ (A.length - 1) 0 (B.length - A.length) ?_]
  · apply trimLoop_eq_zero_left
    have h1 := h (A.length - 1) (by omega)
    have e3 : A.length - 1 - (A.length - 1) = 0 := by omega
    have e4 : B.length - 1 - (A.length - 1) = B.length - A.length := by omega
    rw [e3, e4] at h1
    exact h1
  · intro o ho
    have h1 := h o (by omega)
    have e3 : 0 + (A.length - 1) - o = A.length - 1 - o := by omega
    have e4 : B.length - A.length + (A.length - 1) - o = B.length - 1 - o := by omega
    rw [e3, e4]
    exact h1

theorem trim_common_tail_stop_right {α : Type} [DecidableEq α] (A B : List α)
    (hne : B ≠ []) (hlen : B.length ≤ A.length)
    (h : ∀ o, o < B.length → A[A.length - 1 - o]? = B[B.length - 1 - o]?) :
    trim_common_tail A B = (A, B) := by
  rw [trim_common_tail]
  have hB : 1 ≤ B.length := by
    cases B with
    | nil => exact absurd rfl hne
    | cons a s => simp
  have hdes : trimLoop A B (A.length - 1) (B.length - 1)
      = trimLoop A B (A.length - B.length) 0 := by
    have h2 := trimLoop_descend A B (B.length - 1) (A.length - B.length) 0 ?_
    · rw [show A.length - B.length + (B.length - 1) = A.length - 1 by omega,
          show 0 + (B.length - 1) = B.length - 1 by omega] at h2
      exact h2
    · intro o ho
      have h1 := h o (by omega)
      have e3 : A.length - B.length + (B.length - 1) - o = A.length - 1 - o := by omega
      have e4 : 0 + (B.length - 1) - o = B.length - 1 - o := by omega
      rw [e3, e4]
      exact h1
  rw [hdes]
  have h1 := h (B.length - 1) (by omega)
  have e3 : A.length - 1 - (B.length - 1) = A.length - B.length := by omega
  have e4 : B.length - 1 - (B.length - 1) = 0 := by omega
  rw [e3, e4] at h1
  cases hd : A.length - B.length with
  | zero =>
    rw [hd] at h1
    exact trimLoop_eq_zero_left _ _ 0 h1
  | succ k =>
    rw [hd] at h1
    exact trimLoop_eq_zero_right _ _ k h1

/-! ## Lemmas about root_path -/

theorem alookup_mem {α : Type} {l : List (Entity × α)} {e : Entity} {v : α}
    (h : alookup e l = some v) : (e, v) ∈ l := by
  induction l with
  | nil => simp [alookup] at h
  | cons p rest ih =>
    rcases p with ⟨k, w⟩
    by_cases hek : e = k
    · subst hek
      simp only [alookup, if_pos rfl] at h
      simp [Option.some.inj h]
    · simp only [alookup, if_neg hek] at h
      exact List.mem_cons_of_mem _ (ih h)

theorem pnf_fuel_fence_mem (q : NavQueries) :
    ∀ (fuel : Nat) (x p : Entity) (fence : NavFence),
      parent_nav_fence_fuel fuel x q = some (some (p, fence)) →
      (p, fence) ∈ q.nav_fences := by
  intro fuel
  induction fuel with
  | zero =>
    intro x p fence h
    simp [parent_nav_fence_fuel] at h
  | succ fuel ih =>
    intro x p fence h
    simp only [parent_nav_fence_fuel] at h
    split at h
    · exact Option.noConfusion (Option.some.inj h)
    case h_2 parent hpar =>
      split at h
      case h_1 fence2 hfen =>
        have h3 := Option.some.inj (Option.some.inj h)
        have hp : parent = p := congrArg Prod.fst h3
        have hf : fence2 = fence := congrArg Prod.snd h3
        subst hp
        subst hf
        exact alookup_mem hfen
      case h_2 => exact ih _ p fence h

theorem pnf_fence_mem {q : NavQueries} {x p : Entity} {fence : NavFence}
    (h : parent_nav_fence x q = some (some (p, fence))) : (p, fence) ∈ q.nav_fences :=
  pnf_fuel_fence_mem q _ x p fence h

theorem nav_step_entry_point {q : NavQueries} {cur next : Entity}
    (h : nav_step q cur = some next) : next ∈ entry_points q := by
  rw [nav_step] at h
  cases hpn : parent_nav_fence cur q with
  | none => rw [hpn] at h; simp at h
  | some pr =>
    cases pr with
    | none => rw [hpn] at h; simp at h
    | some pf =>
      rcases pf with ⟨p, fence⟩
      rw [hpn] at h
      simp only at h
      exact List.mem_filterMap.mpr ⟨(p, fence), pnf_fence_mem hpn, h⟩

theorem root_path_loop_ne_div (q : NavQueries)
    (hp : ∀ x, parent_nav_fence x q ≠ none) :
    ∀ (fuel : Nat) (ret : List Entity) (cur : Entity),
      ((entry_points q).toFinset.filter (fun x => x ∉ ret)).card < fuel →
      root_path_loop q fuel ret cur ≠ .div := by
  intro fuel
  induction fuel with
  | zero =>
    intro ret cur hcard
    omega
  | succ fuel ih =>
    intro ret cur hcard
    simp only [root_path_loop]
    split
    next hpn => exact absurd hpn (hp cur)
    next => simp
    next p fence hpn =>
      split
      next => simp
      next nx hfp =>
        by_cases hmem : nx ∈ ret
        · rw [if_pos hmem]
          simp
        · rw [if_neg hmem]
          have hstep : nav_step q cur = some nx := by
            rw [nav_step, hpn]
            exact hfp
          have hnext : nx ∈ entry_points q := nav_step_entry_point hstep
          apply ih
          have hset : (entry_points q).toFinset.filter (fun x => x ∉ ret ++ [nx])
              = ((entry_points q).toFinset.filter (fun x => x ∉ ret)).erase nx := by
            ext a
            simp only [Finset.mem_filter, Finset.mem_erase, List.mem_append,
              List.mem_singleton, List.mem_toFinset]
            constructor
            · intro ⟨ha, hb⟩
              push_neg at hb
              exact ⟨hb.2, ha, hb.1⟩
            · intro ⟨ha, hb, hc⟩
              refine ⟨hb, ?_⟩
              push_neg
              exact ⟨hc, ha⟩
          rw [hset]
          have hmem2 : nx ∈ (entry_points q).toFinset.filter (fun x => x ∉ ret) := by
            simp only [Finset.mem_filter, List.mem_toFinset]
            exact ⟨hnext, hmem⟩
          have hpos : 0 < ((entry_points q).toFinset.filter (fun x => x ∉ ret)).card :=
            Finset.card_pos.mpr ⟨nx, hmem2⟩
          rw [Finset.card_erase_of_mem hmem2]
          omega

theorem root_path_loop_nodup (q : NavQueries) :
    ∀ (fuel : Nat) (ret : List Entity) (cur : Entity) (l : List Entity),
      ret.Nodup → root_path_loop q fuel ret cur = .ok l → l.Nodup := by
  intro fuel
  induction fuel with
  | zero =>
    intro ret cur l hnd h
    simp [root_path_loop] at h
  | succ fuel ih =>
    intro ret cur l hnd h
    simp only [root_path_loop] at h
    split at h
    next => exact absurd h (by simp)
    next =>
      rw [← RRes.ok.inj h]
      exact hnd
    next p fence hpn =>
      split at h
      next =>
        rw [← RRes.ok.inj h]
        exact hnd
      next nx hfp =>
        by_cases hmem : nx ∈ ret
        · rw [if_pos hmem] at h
          exact absurd h (by simp)
        · rw [if_neg hmem] at h
          have hnd2 : (ret ++ [nx]).Nodup := by
            rw [List.nodup_append]
            refine ⟨hnd, List.nodup_singleton nx, ?_⟩
            intro a ha hb
            simp only [List.mem_singleton] at hb
            subst hb
            exact hmem ha
          exact ih _ _ _ hnd2 h

theorem root_path_loop_fatal_chain (q : NavQueries) (e : Entity) :
    ∀ (fuel : Nat) (ret : List Entity) (cur : Entity),
      ret ≠ [] →
      (∀ i, i < ret.length → nav_chain q e i = ret[i]?) →
      nav_chain q e (ret.length - 1) = some cur →
      root_path_loop q fuel ret cur = .fatal →
      ∃ i j, i < j ∧ (nav_chain q e i).isSome ∧ nav_chain q e i = nav_chain q e j := by
  intro fuel
  induction fuel with
  | zero =>
    intro ret cur hne hinv hlast h
    simp [root_path_loop] at h
  | succ fuel ih =>
    intro ret cur hne hinv hlast h
    simp only [root_path_loop] at h
    split at h
    next => exact absurd h (by simp)
    next => exact absurd h (by simp)
    next p fence hpn =>
      split at h
      next => exact absurd h (by simp)
      next nx hfp =>
        have hlen1 : ret.length - 1 + 1 = ret.length := by
          cases ret with
          | nil => exact absurd rfl hne
          | cons a s => simp
        have hstep : nav_step q cur = some nx := by
          rw [nav_step, hpn]
          exact hfp
        have hchain : nav_chain q e ret.length = some nx := by
          rw [← hlen1]
          show (nav_chain q e (ret.length - 1)).bind (nav_step q) = some nx
          rw [hlast]
          exact hstep
        by_cases hmem : nx ∈ ret
        · obtain ⟨i, hgi⟩ := List.mem_iff_getElem?.mp hmem
          have hi : i < ret.length := by
            by_contra hge
            push_neg at hge
            rw [List.getElem?_eq_none hge] at hgi
            exact Option.noConfusion hgi
          refine ⟨i, ret.length, hi, ?_, ?_⟩
          · rw [hinv i hi, hgi]
            rfl
          · rw [hinv i hi, hgi, hchain]
        · rw [if_neg hmem] at h
          apply ih (ret ++ [nx]) nx (by simp) ?_ ?_ h
          · intro i hilen
            rw [List.length_append, List.length_singleton] at hilen
            by_cases hi : i < ret.length
            · rw [List.getElem?_append_left hi]
              exact hinv i hi
            · have hieq : i = ret.length := by omega
              subst hieq
              rw [List.getElem?_concat_length]
              exact hchain
          · have hh : (ret ++ [nx]).length - 1 = ret.length := by
              rw [List.length_append, List.length_singleton]
              omega
            rw [hh]
            exact hchain

theorem root_path_loop_head (q : NavQueries) :
    ∀ (fuel : Nat) (ret : List Entity) (cur : Entity) (l : List Entity),
      ret ≠ [] → root_path_loop q fuel ret cur = .ok l → l.head? = ret.head? := by
  intro fuel
  induction fuel with
  | zero =>
    intro ret cur l hne h
    simp [root_path_loop] at h
  | succ fuel ih =>
    intro ret cur l hne h
    simp only [root_path_loop] at h
    split at h
    next => exact absurd h (by simp)
    next => rw [← RRes.ok.inj h]
    next p fence hpn =>
      split at h
      next => rw [← RRes.ok.inj h]
      next nx hfp =>
        by_cases hmem : nx ∈ ret
        · rw [if_pos hmem] at h
          exact absurd h (by simp)
        · rw [if_neg hmem] at h
          have hrec := ih (ret ++ [nx]) nx l (by simp) h
          rw [hrec]
          exact head?_append_left ret [nx] hne

theorem root_path_head {q : NavQueries} {e : Entity} {l : List Entity}
    (h : root_path e q = .ok l) : l.head? = some e :=
  root_path_loop_head q _ [e] e l (by simp) h

theorem root_path_ok_ne_nil {q : NavQueries} {e : Entity} {l : List Entity}
    (h : root_path e q = .ok l) : l ≠ [] := by
  intro hl
  subst hl
  have := root_path_head h
  simp at this

theorem root_path_nodup {q : NavQueries} {e : Entity} {l : List Entity}
    (h : root_path e q = .ok l) : l.Nodup :=
  root_path_loop_nodup q _ [e] e l (List.nodup_singleton e) h

/-! ## Shape of Changed outcomes produced by resolve -/

theorem resolve_changed_shape :
    ∀ (fuel : Nat) (f : Entity) (r : NavRequest) (q : NavQueries)
      (visited toL fromL : List Entity),
      resolve_fuel fuel f r q visited = .ok (.FocusChanged toL fromL) →
      toL ≠ [] ∧
        (fromL.head? = (visited ++ [f]).head? ∨
          (∃ tgt, r = .FocusOn tgt ∧ fromL.head? = some f)) := by
  intro fuel
  induction fuel with
  | zero =>
    intro f r q visited toL fromL h
    simp [resolve_fuel] at h
  | succ fuel ih =>
    intro f r q visited toL fromL h
    simp only [resolve_fuel] at h
    by_cases hfo : (alookup f q.focusables).isNone
    · rw [if_pos hfo] at h
      exact absurd h (by simp)
    rw [if_neg hfo] at h
    by_cases hv : f ∈ visited
    · rw [if_pos hv] at h
      exact absurd h (by simp)
    rw [if_neg hv] at h
    have hvf : visited ++ [f] ≠ [] := by simp
    split at h
    -- Move
    · split at h
      · exact absurd h (by simp)
      · split at h
        · exact absurd h (by simp)
        · split at h
          · exact absurd h (by simp)
          · exact absurd h (by simp)
          · simp only [NavEvent.focus_changed, RRes.ok.injEq,
              NavEvent.FocusChanged.injEq] at h
            obtain ⟨h1, h2⟩ := h
            subst h1
            subst h2
            exact ⟨by simp, Or.inl rfl⟩
          · exact absurd h (by simp)
    -- Cancel
    · split at h
      · exact absurd h (by simp)
      · split at h
        · simp only [NavEvent.focus_changed, RRes.ok.injEq,
            NavEvent.FocusChanged.injEq] at h
          obtain ⟨h1, h2⟩ := h
          subst h1
          subst h2
          refine ⟨by simp, Or.inl ?_⟩
          exact head?_append_left _ _ hvf
        · exact absurd h (by simp)
      · exact absurd h (by simp)
    -- Action
    · split at h
      · exact absurd h (by simp)
      · split at h
        · exact absurd h (by simp)
        · split at h
          · exact absurd h (by simp)
          · simp only [RRes.ok.injEq, NavEvent.FocusChanged.injEq] at h
            obtain ⟨h1, h2⟩ := h
            subst h1
            subst h2
            exact ⟨by simp, Or.inl rfl⟩
    -- MenuMove
    · split at h
      · exact absurd h (by simp)
      · exact absurd h (by simp)
      · split at h
        · exact absurd h (by simp)
        · split at h
          · split at h
            · simp only [NavEvent.focus_changed, RRes.ok.injEq,
                NavEvent.FocusChanged.injEq] at h
              obtain ⟨h1, h2⟩ := h
              subst h1
              subst h2
              exact ⟨by simp, Or.inl rfl⟩
            · exact absurd h (by simp)
          · split at h
            · exact absurd h (by simp)
            · obtain ⟨h1, h2⟩ := ih _ _ q (visited ++ [f]) toL fromL h
              refine ⟨h1, ?_⟩
              rcases h2 with h2 | ⟨tgt, htgt, _⟩
              · rw [h2]
                exact Or.inl (head?_append_left _ _ hvf)
              · exact absurd htgt (by simp)
    -- FocusOn
    · rename_i tgt
      split at h
      · exact absurd h (by simp)
      · exact absurd h (by simp)
      · rename_i fpath hfpath
        split at h
        · exact absurd h (by simp)
        · exact absurd h (by simp)
        · rename_i tpath htpath
          simp only [RRes.ok.injEq, NavEvent.FocusChanged.injEq] at h
          obtain ⟨h1, h2⟩ := h
          subst h1
          subst h2
          have hheads := trim_common_tail_head fpath tpath
          have hfh : (trim_common_tail fpath tpath).1.head? = some f := by
            rw [hheads.1]
            exact root_path_head hfpath
          have hth : (trim_common_tail fpath tpath).2.head? = some tgt := by
            rw [hheads.2]
            exact root_path_head htpath
          refine ⟨?_, Or.inr ⟨tgt, rfl, hfh⟩⟩
          intro hnil
          rw [hnil] at hth
          simp at hth

theorem resolve_changed_head {q : NavQueries} {f : Entity} {r : NavRequest}
    {toL fromL : List Entity}
    (h : resolve f r q [] = .ok (.FocusChanged toL fromL)) :
    toL ≠ [] ∧ fromL.head? = some f := by
  obtain ⟨h1, h2⟩ := resolve_changed_shape _ f r q [] toL fromL h
  refine ⟨h1, ?_⟩
  rcases h2 with h2 | ⟨tgt, _, h3⟩
  · simpa using h2
  · exact h3

/-! ## Pipeline structure of listen_nav_requests -/

theorem mem_of_head? {α : Type} {l : List α} {a : α} (h : l.head? = some a) : a ∈ l := by
  cases l with
  | nil => simp at h
  | cons x t =>
    simp only [List.head?_cons, Option.some.injEq] at h
    subst h
    exact List.mem_cons_self _ _

theorem listen_ok_inv (w : WorldState) (request : NavRequest) (w' : WorldState)
    (ev : NavEvent) (h : listen_nav_requests w request = .ok (w', ev)) :
    ∃ fid, resolve fid request w.queries [] = .ok ev ∧ w' = commit_event w ev ∧
      (w.focused_markers = [] ∨ w.focused_markers = [fid]) := by
  rw [listen_nav_requests] at h
  split at h
  case h_1 hm =>
    split at h
    · exact absurd h (by simp)
    case h_2 p hp =>
      rw [listen_resolve] at h
      split at h
      · exact absurd h (by simp)
      · exact absurd h (by simp)
      case h_3 ev2 hres =>
        have h2 := RRes.ok.inj h
        have hw : commit_event w ev2 = w' := congrArg Prod.fst h2
        have hev : ev2 = ev := congrArg Prod.snd h2
        subst hev
        exact ⟨p.1, hres, hw.symm, Or.inl hm⟩
  case h_2 a hm =>
    rw [listen_resolve] at h
    split at h
    · exact absurd h (by simp)
    · exact absurd h (by simp)
    case h_3 ev2 hres =>
      have h2 := RRes.ok.inj h
      have hw : commit_event w ev2 = w' := congrArg Prod.fst h2
      have hev : ev2 = ev := congrArg Prod.snd h2
      subst hev
      exact ⟨a, hres, hw.symm, Or.inr hm⟩
  case h_3 => exact absurd h (by simp)

theorem foldl_min_spec (g : Entity → Int) :
    ∀ (rest : List Entity) (s : Entity),
      (rest.foldl (fun acc x => if g x < g acc then x else acc) s) ∈ s :: rest ∧
      ∀ x ∈ s :: rest, g (rest.foldl (fun acc x => if g x < g acc then x else acc) s) ≤ g x := by
  intro rest
  induction rest with
  | nil =>
    intro s
    refine ⟨by simp, ?_⟩
    intro x hx
    simp only [List.foldl_nil]
    simp only [List.mem_singleton] at hx
    subst hx
    exact le_refl _
  | cons y rest ih =>
    intro s
    simp only [List.foldl_cons]
    obtain ⟨hmem, hle⟩ := ih (if g y < g s then y else s)
    have hmem2 : (if g y < g s then y else s) ∈ s :: y :: rest := by
      by_cases hg : g y < g s
      · rw [if_pos hg]
        simp
      · rw [if_neg hg]
        simp
    constructor
    · rcases List.mem_cons.mp hmem with h1 | h2
      · rw [h1]
        exact hmem2
      · exact List.mem_cons_of_mem _ (List.mem_cons_of_mem _ h2)
    · have hinit := hle _ (List.mem_cons_self _ _)
      have hif_s : g (if g y < g s then y else s) ≤ g s := by
        by_cases hg : g y < g s
        · rw [if_pos hg]
          exact le_of_lt hg
        · rw [if_neg hg]
      have hif_y : g (if g y < g s then y else s) ≤ g y := by
        by_cases hg : g y < g s
        · rw [if_pos hg]
        · rw [if_neg hg]
          push_neg at hg
          exact hg
      intro x hx
      rcases List.mem_cons.mp hx with h1 | hx2
      · rw [h1]
        exact le_trans hinit hif_s
      · rcases List.mem_cons.mp hx2 with h1 | h2
        · rw [h1]
          exact le_trans hinit hif_y
        · exact hle _ (List.mem_cons_of_mem _ h2)

/-! ## The claim theorems -/

/-- C7: for every request whose resolution yields a Caught outcome, the
committed world is unchanged — no focus state is written and no `Focused`
marker is added or removed (a `Caught` event issues no command at all) —
while the Caught event itself is still returned (reported outward) by
`listen_nav_requests`. -/
theorem C7_caught_leaves_state_untouched (w w' : WorldState) (request r2 : NavRequest)
    (fromL : List Entity)
    (h : listen_nav_requests w request = .ok (w', .Caught fromL r2)) :
    w' = w := by
  obtain ⟨fid, hres, hcommit, _⟩ := listen_ok_inv w request w' _ h
  rw [hcommit]
  rfl

theorem C7_witness : C7wOut = C7w :=
  C7_caught_leaves_state_untouched C7w C7wOut (.Move .East) (.Move .East) [1] (by decide)

/-- C10: if a request is processed while no entity carries the `Focused`
marker, the substituted starting point is the first focusable of the world —
some existing focusable entity — whenever one exists; if the world contains
no focusable at all, `listen_nav_requests` panics (`.unwrap()` on
`iter().next()`), which emits no outcome (`.fatal` carries no event). -/
theorem C10_no_focused_fallback (w : WorldState) (request : NavRequest)
    (hm : w.focused_markers = []) :
    (w.queries.focusables = [] → listen_nav_requests w request = .fatal) ∧
    (∀ e fc rest, w.queries.focusables = (e, fc) :: rest →
       (e, fc) ∈ w.queries.focusables ∧
       listen_nav_requests w request = listen_resolve w e request) := by
  constructor
  · intro hf
    rw [listen_nav_requests, hm, hf]
    rfl
  · intro e fc rest hf
    refine ⟨by rw [hf]; exact List.mem_cons_self _ _, ?_⟩
    rw [listen_nav_requests, hm, hf]
    rfl

theorem C10_witness :
    listen_nav_requests C10wEmpty .Action = .fatal ∧
    ((7, (⟨.Inert⟩ : Focusable)) ∈ C10wSome.queries.focusables ∧
      listen_nav_requests C10wSome .Action = listen_resolve C10wSome 7 .Action) :=
  ⟨(C10_no_focused_fallback C10wEmpty .Action (by decide)).1 (by decide),
   (C10_no_focused_fallback C10wSome .Action (by decide)).2 7 ⟨.Inert⟩
     [(8, ⟨.Inert⟩)] (by decide)⟩

/-- C3 (code bug): in `C3w` the fence 2 is gated by the focused node 1 and
`children_focusables` is empty, but `resolve`'s Action branch runs
`non_inert_within(&to, queries).unwrap()` on the empty list and panics
instead of producing the Caught outcome required by the spec. -/
theorem C3_empty_container_panics :
    children_focusables 2 C3w.queries = some [] ∧
    resolve 1 .Action C3w.queries [] = .fatal ∧
    listen_nav_requests C3w .Action = .fatal := by
  refine ⟨by decide, by decide, by decide⟩

/-- C4 (code bug): delegation of a Step request does re-issue the same
request from the fence's entry point with the visited path extended (first
conjunct: in `C4w2` the event's `from` is `[1, 2]`, the original focused
node followed by the entry point), but when the delegation reaches a
non-sequence **root** fence (no entry point), `resolve` runs
`nav_fence.focus_parent.unwrap()` and panics instead of producing the
Caught outcome required by the spec (second conjunct, world `C4w`). -/
theorem C4_step_delegation_and_root_crash :
    resolve 1 (.MenuMove .Next) C4w2.queries [] = .ok (.FocusChanged [3] [1, 2]) ∧
    resolve 1 (.MenuMove .Next) C4w.queries [] = .fatal ∧
    listen_nav_requests C4w (.MenuMove .Next) = .fatal := by
  refine ⟨by decide, by decide, by decide⟩

/-- C5: `root_path` terminates on every graph whose parent hierarchy is
well-founded (the hypothesis `hp` says `parent_nav_fence` itself
terminates), including graphs with a cycle in the entry-point relation:
(1) it never diverges; (2) the accumulated path never revisits a node (a
revisit panics first, so an `ok` result is duplicate-free); (3) the panic
branch is reached only when the entry-point chain genuinely revisits an
entity — under the acyclicity precondition it is unreachable; and (4) the
cycle guard of `resolve` (its second `assert!`) panics whenever the visited
path already contains the focused node, instead of recursing. -/
theorem C5_root_path_terminates (q : NavQueries) (e : Entity)
    (hp : ∀ x, parent_nav_fence x q ≠ none) :
    root_path e q ≠ .div ∧
    (∀ l, root_path e q = .ok l → l.Nodup) ∧
    (root_path e q = .fatal →
      ∃ i j, i < j ∧ (nav_chain q e i).isSome ∧ nav_chain q e i = nav_chain q e j) ∧
    (∀ focused r visited, focused ∈ visited → resolve focused r q visited = .fatal) := by
  refine ⟨?_, ?_, ?_, ?_⟩
  · apply root_path_loop_ne_div q hp
    calc ((entry_points q).toFinset.filter (fun x => x ∉ [e])).card
        ≤ (entry_points q).toFinset.card := Finset.card_filter_le _ _
      _ ≤ (entry_points q).length := List.toFinset_card_le _
      _ ≤ q.nav_fences.length := List.length_filterMap_le _ _
      _ < q.nav_fences.length + 2 := by omega
  · intro l h
    exact root_path_nodup h
  · intro h
    apply root_path_loop_fatal_chain q e _ [e] e (by simp) ?_ ?_ h
    · intro i hi
      simp only [List.length_singleton] at hi
      have h0 : i = 0 := by omega
      subst h0
      rfl
    · rfl
  · intro focused r visited hmem
    rw [resolve]
    show resolve_fuel (q.nav_fences.length + 1 + 1) focused r q visited = .fatal
    simp only [resolve_fuel]
    by_cases hfo : (alookup focused q.focusables).isNone
    · rw [if_pos hfo]
    · rw [if_neg hfo, if_pos hmem]

theorem C5_witness :
    root_path 1 C5q ≠ RRes.div ∧
    (∀ l, root_path 1 C5q = .ok l → l.Nodup) ∧
    (root_path 1 C5q = .fatal →
      ∃ i j, i < j ∧ (nav_chain C5q 1 i).isSome ∧ nav_chain C5q 1 i = nav_chain C5q 1 j) ∧
    (∀ focused r visited, focused ∈ visited → resolve focused r C5q visited = .fatal) :=
  C5_root_path_terminates C5q 1 (by
    intro x
    rw [parent_nav_fence]
    intro hcontra
    simp [C5q, parent_nav_fence_fuel, alookup] at hcontra)

/-- C6 counterexample: the chains `[4, 5]` and `[3, 4, 5]` share the
trailing run `[4, 5]`, but `trim_common_tail` returns them unchanged — the
results still share **two** trailing elements, not exactly one common
anchor ("trimmed A = [4], B = [3, 4]" as the claim would require). -/
theorem C6_counterexample :
    trim_common_tail ([4, 5] : List Nat) [3, 4, 5] = ([4, 5], [3, 4, 5]) ∧
    trim_common_tail ([4, 5] : List Nat) [3, 4, 5] ≠ ([4], [3, 4]) := by
  refine ⟨by decide, by decide⟩

/-- C6 amended: when the chains are `xs ++ [x, c] ++ t` and
`ys ++ [y, c] ++ t` with `x ≠ y` — a shared trailing run `c :: t` and a
genuine divergence while both chains still have elements — trimming keeps
each prefix up to exactly one common anchor `c` and drops everything beyond
the divergence.  When instead the shared trailing run extends to the head
of either chain, both chains are returned unchanged. -/
theorem C6_trim_amended {α : Type} [DecidableEq α] :
    (∀ (xs ys t : List α) (x y c : α), x ≠ y →
      trim_common_tail (xs ++ x :: c :: t) (ys ++ y :: c :: t)
        = (xs ++ [x, c], ys ++ [y, c])) ∧
    (∀ (A B : List α), A ≠ [] → A.length ≤ B.length →
      (∀ o, o < A.length → A[A.length - 1 - o]? = B[B.length - 1 - o]?) →
      trim_common_tail A B = (A, B)) ∧
    (∀ (A B : List α), B ≠ [] → B.length ≤ A.length →
      (∀ o, o < B.length → A[A.length - 1 - o]? = B[B.length - 1 - o]?) →
      trim_common_tail A B = (A, B)) :=
  ⟨fun xs ys t x y c h => trim_common_tail_diverge xs ys t x y c h,
   fun A B h1 h2 h3 => trim_common_tail_stop_left A B h1 h2 h3,
   fun A B h1 h2 h3 => trim_common_tail_stop_right A B h1 h2 h3⟩

theorem C6_witness :
    trim_common_tail ([1, 2, 3, 4, 5, 6, 7] : List Nat) [3, 2, 1, 4, 5, 6, 7]
      = ([1, 2, 3, 4], [3, 2, 1, 4]) := by
  have h := (C6_trim_amended (α := Nat)).1 [1, 2] [3, 2] [5, 6, 7] 3 1 4 (by decide)
  simpa using h

/-- C9: directional resolution excludes the focused node itself, keeps only
siblings passing the directional half-plane test against the focused node's
position, returns among survivors a sibling of minimal squared Euclidean
distance, and returns nothing when no sibling survives the filter.
(`Direction.is_in` is modelled from the spec, `src/events.rs` being absent
from the sources.) -/
theorem C9_directional_resolution (q : NavQueries) (focused : Entity) (d : Direction)
    (siblings : List Entity) (floc : Pos)
    (hf : alookup focused q.transform = some floc)
    (hall : siblings.all (fun s => (alookup s q.transform).isSome) = true) :
    (∀ t, resolve_2d focused d siblings q = .ok (some t) →
        t ∈ siblings ∧ t ≠ focused ∧ d.is_in floc (posOf q t) = true ∧
        ∀ s ∈ siblings, s ≠ focused → d.is_in floc (posOf q s) = true →
          dist_sq floc (posOf q t) ≤ dist_sq floc (posOf q s)) ∧
    ((∀ s ∈ siblings, ¬(d.is_in floc (posOf q s) = true ∧ s ≠ focused)) →
        resolve_2d focused d siblings q = .ok none) := by
  have hres : resolve_2d focused d siblings q =
      match siblings.filter
          (fun s => d.is_in floc (posOf q s) && decide (s ≠ focused)) with
      | [] => .ok none
      | s :: rest => .ok (some (rest.foldl
          (fun acc x =>
            if dist_sq floc (posOf q x) < dist_sq floc (posOf q acc)
            then x else acc) s)) := by
    rw [resolve_2d, hf]
    exact if_pos hall
  constructor
  · intro t ht
    rw [hres] at ht
    cases hfil : siblings.filter
        (fun s => d.is_in floc (posOf q s) && decide (s ≠ focused)) with
    | nil =>
      rw [hfil] at ht
      exact absurd ht (by simp)
    | cons s rest =>
      rw [hfil] at ht
      simp only [RRes.ok.injEq, Option.some.injEq] at ht
      obtain ⟨hmem, hle⟩ := foldl_min_spec (fun x => dist_sq floc (posOf q x)) rest s
      have hmem2 : t ∈ s :: rest := by
        rw [← ht]
        exact hmem
      have hmemfil : t ∈ siblings.filter
          (fun s => d.is_in floc (posOf q s) && decide (s ≠ focused)) := by
        rw [hfil]
        exact hmem2
      have htf := List.mem_filter.mp hmemfil
      have hpt : d.is_in floc (posOf q t) = true ∧ t ≠ focused := by
        have := htf.2
        simp only [Bool.and_eq_true, decide_eq_true_eq] at this
        exact this
      refine ⟨htf.1, hpt.2, hpt.1, ?_⟩
      intro s2 hs2 hs2f hs2d
      have hs2fil : s2 ∈ siblings.filter
          (fun s => d.is_in floc (posOf q s) && decide (s ≠ focused)) := by
        apply List.mem_filter.mpr
        refine ⟨hs2, ?_⟩
        simp only [Bool.and_eq_true, decide_eq_true_eq]
        exact ⟨hs2d, hs2f⟩
      rw [hfil] at hs2fil
      have := hle s2 hs2fil
      rw [ht] at this
      exact this
  · intro hnone
    rw [hres]
    have hfil : siblings.filter
        (fun s => d.is_in floc (posOf q s) && decide (s ≠ focused)) = [] := by
      rw [List.filter_eq_nil_iff]
      intro s hs
      have := hnone s hs
      simp only [Bool.and_eq_true, decide_eq_true_eq]
      intro hcontra
      exact this ⟨hcontra.1, hcontra.2⟩
    rw [hfil]

theorem C9_witness :
    resolve_2d 0 .East [1, 2, 3] C9q = .ok (some 1) ∧
    (∀ t, resolve_2d 0 .East [1, 2, 3] C9q = .ok (some t) →
        t ∈ [1, 2, 3] ∧ t ≠ 0 ∧ Direction.is_in .East ⟨0, 0⟩ (posOf C9q t) = true ∧
        ∀ s ∈ [1, 2, 3], s ≠ 0 → Direction.is_in .East ⟨0, 0⟩ (posOf C9q s) = true →
          dist_sq ⟨0, 0⟩ (posOf C9q t) ≤ dist_sq ⟨0, 0⟩ (posOf C9q s)) :=
  ⟨by decide,
   (C9_directional_resolution C9q 0 .East [1, 2, 3] ⟨0, 0⟩ (by decide) (by decide)).1⟩

/-- C8 counterexample: a Cancel from node 1 (inside fence 10 whose entry
point is node 2) produces the Changed outcome `{to := [2], from := [1, 2]}`
— the `from` sequence contains the destination node 2 itself, which the
claim says never happens. -/
theorem C8_counterexample :
    resolve 1 .Cancel C2w.queries [] = .ok (.FocusChanged [2] [1, 2]) ∧
    (2 : Entity) ∈ ([1, 2] : List Entity) := by
  refine ⟨by decide, by decide⟩

/-- C8 amended: for every Changed outcome of a request resolved from an
empty visited path, `from` begins with the old focused node and `to` is
non-empty (its head is the node the commit will focus); for Cancel the
`from` sequence is exactly the old focused node followed by the destination
entry point itself — i.e. `from` does extend beyond the divergence point to
include the destination — and `to` is exactly the destination. -/
theorem C8_changed_paths_amended (q : NavQueries) (f : Entity) (r : NavRequest)
    (toL fromL : List Entity)
    (h : resolve f r q [] = .ok (.FocusChanged toL fromL)) :
    fromL.head? = some f ∧ toL ≠ [] ∧
    (r = .Cancel → ∃ dest, toL = [dest] ∧ fromL = [f, dest]) := by
  obtain ⟨h1, h2⟩ := resolve_changed_head h
  refine ⟨h2, h1, ?_⟩
  intro hr
  subst hr
  rw [resolve] at h
  show ∃ dest, toL = [dest] ∧ fromL = [f, dest]
  have hsucc : q.nav_fences.length + 2 = (q.nav_fences.length + 1) + 1 := rfl
  rw [hsucc] at h
  simp only [resolve_fuel] at h
  by_cases hfo : (alookup f q.focusables).isNone
  · rw [if_pos hfo] at h
    exact absurd h (by simp)
  rw [if_neg hfo] at h
  rw [if_neg (by simp : ¬ f ∈ ([] : List Entity))] at h
  split at h
  · exact absurd h (by simp)
  · split at h
    · simp only [NavEvent.focus_changed, RRes.ok.injEq,
        NavEvent.FocusChanged.injEq] at h
      obtain ⟨ht, hf2⟩ := h
      rename_i dest hdest
      refine ⟨dest, ht.symm, ?_⟩
      rw [← hf2]
      rfl
    · exact absurd h (by simp)
  · exact absurd h (by simp)

theorem C8_witness :
    ([1, 2] : List Entity).head? = some 1 ∧ ([2] : List Entity) ≠ [] ∧
    (NavRequest.Cancel = .Cancel →
      ∃ dest, ([2] : List Entity) = [dest] ∧ ([1, 2] : List Entity) = [1, dest]) :=
  C8_changed_paths_amended C2w.queries 1 .Cancel [2] [1, 2] (by decide)

/-- C2 counterexample: committing the Cancel outcome
`{to := [2], from := [1, 2]}` on `C2w` leaves node 1 — the **first** element
of `from`, the previously focused leaf — in state `Dormant`, not `Inert` as
the claim requires (the code inert-ifies the **last** element of `from`). -/
theorem C2_counterexample :
    listen_nav_requests C2w .Cancel = .ok (C2wOut, .FocusChanged [2] [1, 2]) ∧
    alookup 1 C2wOut.queries.focusables = some ⟨.Dormant⟩ ∧
    ¬ alookup 1 C2wOut.queries.focusables = some ⟨.Inert⟩ := by
  refine ⟨by decide, by decide, by decide⟩

/-- C2 amended: for every committed Changed outcome `{to, from}`, the
**last** element of `from` is set to `Inert` and every earlier element of
`from` to `Dormant`, while the first element of `to` is set to `Focused`
and every other element of `to` to `Active`; the `to` writes are issued
after the `from` writes, so an entity occurring in both ends with its `to`
state (each conjunct below therefore excludes the positions written
later). -/
theorem C2_commit_amended (w : WorldState) (toL fromL : List Entity) :
    (∀ dl, fromL.getLast? = some dl → dl ∉ fromL.dropLast → dl ∉ toL →
        alookup dl (commit_event w (.FocusChanged toL fromL)).queries.focusables
          = some ⟨.Inert⟩) ∧
    (∀ e, e ∈ fromL.dropLast → e ∉ toL →
        alookup e (commit_event w (.FocusChanged toL fromL)).queries.focusables
          = some ⟨.Dormant⟩) ∧
    (∀ hfoc, toL.head? = some hfoc → hfoc ∉ toL.tail →
        alookup hfoc (commit_event w (.FocusChanged toL fromL)).queries.focusables
          = some ⟨.Focused⟩) ∧
    (∀ e, e ∈ toL.tail →
        alookup e (commit_event w (.FocusChanged toL fromL)).queries.focusables
          = some ⟨.Active⟩) := by
  refine ⟨?_, ?_, ?_, ?_⟩
  · intro dl hlast hndrop hnto
    rw [commit_state_eq]
    rw [if_neg (fun hc => hnto (List.mem_of_mem_tail hc))]
    rw [if_neg (fun hc => hnto (mem_of_head? hc))]
    rw [if_neg hndrop, if_pos hlast]
  · intro e hdrop hnto
    rw [commit_state_eq]
    rw [if_neg (fun hc => hnto (List.mem_of_mem_tail hc))]
    rw [if_neg (fun hc => hnto (mem_of_head? hc))]
    rw [if_pos hdrop]
  · intro hfoc hhead hntail
    rw [commit_state_eq]
    rw [if_neg hntail, if_pos hhead]
  · intro e htail
    rw [commit_state_eq]
    rw [if_pos htail]

theorem C2_amended_witness :
    alookup 1 (commit_event C2w (.FocusChanged [2, 9] [5, 1])).queries.focusables
        = some ⟨.Inert⟩ ∧
    alookup 5 (commit_event C2w (.FocusChanged [2, 9] [5, 1])).queries.focusables
        = some ⟨.Dormant⟩ ∧
    alookup 2 (commit_event C2w (.FocusChanged [2, 9] [5, 1])).queries.focusables
        = some ⟨.Focused⟩ ∧
    alookup 9 (commit_event C2w (.FocusChanged [2, 9] [5, 1])).queries.focusables
        = some ⟨.Active⟩ :=
  ⟨(C2_commit_amended C2w [2, 9] [5, 1]).1 1 (by decide) (by decide) (by decide),
   (C2_commit_amended C2w [2, 9] [5, 1]).2.1 5 (by decide) (by decide),
   (C2_commit_amended C2w [2, 9] [5, 1]).2.2.1 2 (by decide) (by decide),
   (C2_commit_amended C2w [2, 9] [5, 1]).2.2.2 9 (by decide)⟩

/-- C1: processing one request on a consistent world with at most one
focused node, when it commits a Changed outcome, leaves **exactly one**
node holding the `Focused` state, and that node carries the `Focused`
marker; consistency and the at-most-one bound are re-established, so by
induction every world of a sequence of committed Changed outcomes has
exactly one focused node after each commit and never two simultaneously.
The hypothesis `hnd` (the head of `to` does not recur in its tail) holds
for every outcome of an acyclic navigation graph — the caller-maintained
invariant the spec assumes — and is automatic for every request kind except
a Action on a cyclically-gated fence. -/
theorem C1_unique_focused (w w' : WorldState) (r : NavRequest)
    (toL fromL : List Entity)
    (hcons : consistentW w)
    (hone : w.focused_markers.length ≤ 1)
    (hstep : listen_nav_requests w r = .ok (w', .FocusChanged toL fromL))
    (hnd : ∀ hfoc, toL.head? = some hfoc → hfoc ∉ toL.tail) :
    ∃ hfoc, toL.head? = some hfoc ∧
      (∀ e, alookup e w'.queries.focusables = some ⟨.Focused⟩ ↔ e = hfoc) ∧
      w'.focused_markers = [hfoc] ∧
      consistentW w' ∧ w'.focused_markers.length ≤ 1 := by
  obtain ⟨fid, hres, hcommit, hmk⟩ := listen_ok_inv w r w' _ hstep
  obtain ⟨htne, hhead⟩ := resolve_changed_head hres
  have hfid : fid ∈ fromL := mem_of_head? hhead
  have hfne : fromL ≠ [] := by
    intro hemp
    rw [hemp] at hhead
    simp at hhead
  have hsub : ∀ m ∈ w.focused_markers, m ∈ fromL := by
    rcases hmk with hmk | hmk
    · rw [hmk]
      intro m hm
      simp at hm
    · rw [hmk]
      intro m hm
      simp only [List.mem_singleton] at hm
      rw [hm]
      exact hfid
  obtain ⟨hfoc, hh⟩ : ∃ x, toL.head? = some x := by
    cases toL with
    | nil => exact absurd rfl htne
    | cons a t => exact ⟨a, rfl⟩
  have hnt : hfoc ∉ toL.tail := hnd hfoc hh
  subst hcommit
  have hmarkers : (commit_event w (.FocusChanged toL fromL)).focused_markers
      = [hfoc] := by
    rw [commit_markers_eq w toL fromL hsub, hh]
  have hiff : ∀ e, alookup e (commit_event w
      (.FocusChanged toL fromL)).queries.focusables = some ⟨.Focused⟩ ↔ e = hfoc := by
    intro e
    constructor
    · intro halo
      rw [commit_state_eq] at halo
      by_cases h1 : e ∈ toL.tail
      · rw [if_pos h1] at halo
        exact absurd (Focusable.mk.inj (Option.some.inj halo)) (by simp)
      rw [if_neg h1] at halo
      by_cases h2 : toL.head? = some e
      · rw [hh] at h2
        exact (Option.some.inj h2).symm
      rw [if_neg h2] at halo
      by_cases h3 : e ∈ fromL.dropLast
      · rw [if_pos h3] at halo
        exact absurd (Focusable.mk.inj (Option.some.inj halo)) (by simp)
      rw [if_neg h3] at halo
      by_cases h4 : fromL.getLast? = some e
      · rw [if_pos h4] at halo
        exact absurd (Focusable.mk.inj (Option.some.inj halo)) (by simp)
      rw [if_neg h4] at halo
      have hkey : e ∈ w.queries.focusables.map Prod.fst := alookup_mem_keys halo
      have hmem : e ∈ w.focused_markers := hcons.1 e hkey halo
      have hef : e ∈ fromL := hsub e hmem
      have hsplit : fromL.dropLast ++ [fromL.getLast hfne] = fromL :=
        List.dropLast_append_getLast hfne
      rw [← hsplit] at hef
      rcases List.mem_append.mp hef with h5 | h5
      · exact absurd h5 h3
      · have h6 : e = fromL.getLast hfne := by simpa using h5
        rw [List.getLast?_eq_getLast fromL hfne, ← h6] at h4
        exact absurd rfl h4
    · intro he
      rw [he, commit_state_eq]
      rw [if_neg hnt, if_pos hh]
  refine ⟨hfoc, hh, hiff, hmarkers, ⟨?_, ?_⟩, by rw [hmarkers]; simp⟩
  · intro e _ halo
    rw [hmarkers]
    simp only [List.mem_singleton]
    exact (hiff e).mp halo
  · intro e hm
    rw [hmarkers] at hm
    simp only [List.mem_singleton] at hm
    rw [hm]
    exact (hiff hfoc).mpr rfl

theorem C1_witness :
    ∃ hfoc, ([2] : List Entity).head? = some hfoc ∧
      (∀ e, alookup e C1wOut.queries.focusables = some ⟨.Focused⟩ ↔ e = hfoc) ∧
      C1wOut.focused_markers = [hfoc] ∧
      consistentW C1wOut ∧ C1wOut.focused_markers.length ≤ 1 :=
  C1_unique_focused C1w C1wOut (.Move .East) [2] [1]
    (by constructor
        · decide
        · decide)
    (by decide)
    (by decide)
    (by
      intro x hx
      simp only [List.head?_cons, Option.some.injEq] at hx
      rw [← hx]
      simp)

end UiNav
